import Mathlib

/-!
Shallow embedding of CopyQ `src/gui/logdialog.cpp`: the time-sliced document
decoration engine (`Decorator::decorate`, `Decorator::decorateBatch`), its two
strategies (`LogDecorator`, `StringDecorator`), and the log-refresh text
pipeline (`LogDialog::updateLog`, `showLogLines`).

Modelling conventions:

* A Qt text document (as produced by `setPlainText`) is a list of blocks
  (lines without the newline character).  Block `i` starts at global cursor
  position `sum of (length + 1)` over earlier blocks; the position directly
  after a block's text is its paragraph separator.
* `QTextDocument::find(re, cursor, FindBackward)` searches block by block,
  from the block containing `position - 1` backward; inside a block it uses
  `QRegExp::lastIndexIn(text, offset)`, which returns the match whose start
  index is the largest one at or below `offset` (the match may extend past
  `offset`).  `findPrev` below models this as: the match of the scanner's
  pattern with the largest global start strictly below the search position
  (later blocks hold larger global positions, so the block-by-block backward
  iteration and the global maximum agree).
* The two patterns are fixed regular expressions; their matching semantics is
  embedded directly: `^.*: ` (QRegExp is greedy, and with the default
  `CaretAtZero` mode `^` matches only at index 0 of the block text) matches
  from the start of a block through the last `": "` occurrence in it, and
  `"[^"]*"|'[^']*'` matches a quote character followed by the nearest later
  quote character of the same kind.
* Wall-clock time in `decorateBatch` is modelled by a budget argument: the
  `do { ... } while (t.elapsed() < 20)` loop always performs its body once,
  and the budget counts how many further iterations the 20 ms slice allows;
  any positive wall-clock budget corresponds to some `budget : Nat`.
-/

abbrev Block := List Char

abbrev Doc := List Block

/-- A matcher takes a block's text and a start offset and returns the end
offset of the pattern match starting there, if any.  This is the per-block
interface of a scanner's `QRegExp`. -/
abbrev Matcher := Block → Nat → Option Nat

/-- The double-quote character. -/
def dquoteChar : Char := Char.ofNat 34

/-- The single-quote character. -/
def squoteChar : Char := Char.ofNat 39

/-- Visual colors used by the decorators (`Qt::red`, `QColor(100,100,200)`, ...). -/
inductive Color
  | black
  | white
  | red
  | darkRed
  | darkGreen
  | rgb (r g b : Nat)
  deriving DecidableEq

/-- A `QTextCharFormat`: only the attributes the dialog sets are modelled.
A fresh format has no attribute set. -/
structure Fmt where
  bold : Option Bool := none
  foreground : Option Color := none
  background : Option Color := none
  deriving DecidableEq

/-- Log severity levels, as in `common/log.h`. -/
inductive LogLevel
  | LogNote
  | LogError
  | LogWarning
  | LogDebug
  | LogTrace
  deriving DecidableEq

/-- Modelled from the spec: `logLevelLabel` is declared in `common/log.h`,
whose implementation is not part of the sources; per the spec the known
severity labels are the tokens Note, Error, Warning, Debug and Trace,
appearing in the log as line headers `<Label>: <message>`. -/
def logLevelLabel : LogLevel → List Char
  | .LogNote => "Note".data
  | .LogError => "Error".data
  | .LogWarning => "Warning".data
  | .LogDebug => "Debug".data
  | .LogTrace => "Trace".data

/-- The `normalFormat` in `LogDecorator::LogDecorator`: bold font, white
background, black foreground. -/
def normalFormat : Fmt :=
  { bold := some true, foreground := some Color.black, background := some Color.white }

/-- The `m_noteLogLevelFormat` member. -/
def noteLogLevelFormat : Fmt := normalFormat

/-- The `m_errorLogLevelFormat` member. -/
def errorLogLevelFormat : Fmt := { normalFormat with foreground := some Color.red }

/-- The `m_warningLogLevelFormat` member. -/
def warningLogLevelFormat : Fmt := { normalFormat with foreground := some Color.darkRed }

/-- The `m_debugLogLevelFormat` member. -/
def debugLogLevelFormat : Fmt := { normalFormat with foreground := some (Color.rgb 100 100 200) }

/-- The `m_traceLogLevelFormat` member. -/
def traceLogLevelFormat : Fmt := { normalFormat with foreground := some (Color.rgb 200 150 100) }

/-- The `m_stringFormat` in `StringDecorator`: a fresh format with dark green
foreground. -/
def stringFormat : Fmt := { foreground := some Color.darkGreen }

/-- Models `LogDecorator::decorate(QTextCursor*)` (logdialog.cpp lines 141-154):
the if/else-if chain over `selectedText()`.  Returns `none` when no label is a
prefix of the matched text, meaning `setCharFormat` is not called and the
span's existing format is left unchanged. -/
def logLevelHook (text : List Char) : Option Fmt :=
  if (logLevelLabel .LogNote).isPrefixOf text then some noteLogLevelFormat
  else if (logLevelLabel .LogError).isPrefixOf text then some errorLogLevelFormat
  else if (logLevelLabel .LogWarning).isPrefixOf text then some warningLogLevelFormat
  else if (logLevelLabel .LogDebug).isPrefixOf text then some debugLogLevelFormat
  else if (logLevelLabel .LogTrace).isPrefixOf text then some traceLogLevelFormat
  else none

/-- Models `StringDecorator::decorate(QTextCursor*)` (lines 179-182): unconditionally
applies `m_stringFormat` to every match. -/
def stringHook (_ : List Char) : Option Fmt := some stringFormat

/-- Index of the last `": "` occurrence in a block's text, if any. -/
def lastColonSpace : List Char → Option Nat
  | [] => none
  | c :: rest =>
    match lastColonSpace rest with
    | some j => some (j + 1)
    | none => if c = ':' ∧ rest.head? = some ' ' then some 0 else none

/-- Whether `": "` occurs at index `j` of a block's text. -/
def hasColonSpaceAt (b : List Char) (j : Nat) : Bool :=
  (b.get? j == some ':') && (b.get? (j + 1) == some ' ')

/-- The `LogDecorator` pattern `QRegExp("^.*: ")` (line 110) on one block:
with the default `CaretAtZero` mode `^` matches only at offset 0, and the
greedy `.*` extends the match through the last `": "` in the block text. -/
def levelMatchAt : Matcher := fun b i =>
  if i = 0 then (lastColonSpace b).map (fun j => j + 2) else none

/-- Index of the first occurrence of `q` in a list, if any. -/
def firstIdxFrom (q : Char) : List Char → Option Nat
  | [] => none
  | c :: rest => if c = q then some 0 else (firstIdxFrom q rest).map (fun k => k + 1)

/-- The `StringDecorator` pattern `QRegExp("\x22[^\x22]*\x22|'[^']*'")`
(line 173) on one block: a match starts at a quote character and ends just
after the nearest later quote character of the same kind (the negated
character class cannot cross a quote, so the closing quote is the first later
one). -/
def stringMatchAt : Matcher := fun b i =>
  match b.get? i with
  | none => none
  | some q =>
    if q = dquoteChar ∨ q = squoteChar then
      (firstIdxFrom q (b.drop (i + 1))).map (fun k => i + k + 2)
    else none

/-- The `QTextCursor::End` position of a document: total text length counting
one separator between consecutive blocks. -/
def docEnd : Doc → Nat
  | [] => 0
  | [b] => b.length
  | b :: bs => b.length + 1 + docEnd bs

/-- The match of `m` starting at global position `s` in `doc`, if any:
the end position (global) and the matched text.  Positions inside block `b`
at global start `q` are the local offsets `0 .. b.length` (offset `b.length`
is the separator position). -/
def gMatch (m : Matcher) : Doc → Nat → Option (Nat × List Char)
  | [], _ => none
  | b :: bs, s =>
    if s ≤ b.length then
      (m b s).map (fun e => (e, (b.drop s).take (e - s)))
    else
      (gMatch m bs (s - (b.length + 1))).map (fun p => (p.1 + (b.length + 1), p.2))

/-- Models `QRegExp::lastIndexIn(text, off)`: the match of `m` in block `b` with the
largest start index at or below `off`, returned as (start, end). -/
def lastMatchLE (m : Matcher) (b : Block) : Nat → Option (Nat × Nat)
  | 0 => (m b 0).map (fun e => (0, e))
  | o + 1 =>
    match m b (o + 1) with
    | some e => some (o + 1, e)
    | none => lastMatchLE m b o

/-- One match found by the scanner: global start, global end, matched text
(the `QTextCursor` selection produced by `QTextDocument::find`). -/
structure Span where
  s : Nat
  e : Nat
  txt : List Char
  deriving DecidableEq

/-- Models `QTextDocument::find(m_re, m_tc, QTextDocument::FindBackward)` (line 88):
the match with the largest global start strictly below the search position
`pos` (Qt decrements the position first, searches the covering block from
local offset `min (pos-1) b.length` and then each earlier block in full). -/
def findPrev (m : Matcher) : Doc → Nat → Option Span
  | [], _ => none
  | b :: bs, pos =>
    match findPrev m bs (pos - (b.length + 1)) with
    | some sp => some ⟨sp.s + (b.length + 1), sp.e + (b.length + 1), sp.txt⟩
    | none =>
      if pos = 0 then none
      else
        match lastMatchLE m b (min (pos - 1) b.length) with
        | some ie => some ⟨ie.1, ie.2, (b.drop ie.1).take (ie.2 - ie.1)⟩
        | none => none

/-- The matches visited by a full Pass started at `pos`, in visit order
(fuel-based formulation; `passSpans` instantiates the fuel with `pos`, which
suffices because each visited start is strictly smaller than the previous
position). -/
def passSpansGo (m : Matcher) (doc : Doc) : Nat → Nat → List Span
  | 0, _ => []
  | fuel + 1, pos =>
    match findPrev m doc pos with
    | none => []
    | some sp => sp :: passSpansGo m doc fuel sp.s

/-- All matches visited by a full Pass of the scanner from position `pos`
down to the start of the document, in visit order (strictly decreasing
starts). -/
def passSpans (m : Matcher) (doc : Doc) (pos : Nat) : List Span :=
  passSpansGo m doc pos pos

/-- The style overlay of a document: the character format applied at each
global position, `none` meaning the default (untouched) format. -/
abbrev Overlay := Nat → Option Fmt

/-- The overlay of a freshly set document: nothing styled. -/
def emptyOv : Overlay := fun _ => none

/-- Models `QTextCursor::setCharFormat` on the selection `[s, e)`. -/
def setFmt (s e : Nat) (f : Fmt) (ov : Overlay) : Overlay :=
  fun p => if s ≤ p ∧ p < e then some f else ov p

/-- Apply one strategy invocation `decorate(&m_tc)` to the overlay: the hook
either sets a format on the span or leaves the overlay unchanged. -/
def applyHook (hook : List Char → Option Fmt) (sp : Span) (ov : Overlay) : Overlay :=
  match hook sp.txt with
  | some f => setFmt sp.s sp.e f ov
  | none => ov

/-- Apply the strategy to each visited span in visit order. -/
def applySpans (hook : List Char → Option Fmt) (ov : Overlay) : List Span → Overlay
  | [] => ov
  | sp :: rest => applySpans hook (applyHook hook sp ov) rest

/-- The overlay produced by running one scanner's full Pass to completion on
`doc`, starting from overlay `ov` (cursor starts at `QTextCursor::End`). -/
def runPassOv (m : Matcher) (hook : List Char → Option Fmt) (doc : Doc) (ov : Overlay) :
    Overlay :=
  applySpans hook ov (passSpans m doc (docEnd doc))

/-- Observable outcome of one `Decorator::decorateBatch` invocation: the
spans styled during the slice, the scanner's cursor afterwards (`none` models
a null `m_tc`), and whether the zero-delay continuation timer was started. -/
structure BatchOut where
  spans : List Span
  cursor : Option Nat
  scheduled : Bool
  deriving DecidableEq

/-- The `do { find; if null return; decorate } while (t.elapsed() < 20)` loop
of `Decorator::decorateBatch` (lines 84-95), starting from a valid cursor at
position `pos`.  `budget` is the number of loop iterations the 20 ms slice
still allows after the mandatory first one; when the slice is exhausted with
the cursor still valid, `m_timerDecorate.start()` schedules a continuation. -/
def batchIter (m : Matcher) (doc : Doc) : Nat → Nat → BatchOut
  | budget, pos =>
    match findPrev m doc pos with
    | none => ⟨[], none, false⟩
    | some sp =>
      match budget with
      | 0 => ⟨[sp], some sp.s, true⟩
      | b + 1 =>
        let r := batchIter m doc b sp.s
        ⟨sp :: r.spans, r.cursor, r.scheduled⟩

/-- Models `Decorator::decorateBatch` (lines 79-96) including the initial
`m_tc.isNull()` guard (lines 81-82): a null cursor returns immediately,
styling nothing and scheduling nothing. -/
def decorateBatchM (m : Matcher) (doc : Doc) (cur : Option Nat) (budget : Nat) : BatchOut :=
  match cur with
  | none => ⟨[], none, false⟩
  | some pos => batchIter m doc budget pos

/-- Models `Decorator::decorate(QTextDocument*)` (lines 71-76): unconditionally
overwrite `m_tc` with a cursor at the end of `document` (superseding whatever
the previous state `st` was) and synchronously run one batch. -/
def decorateM (m : Matcher) (doc : Doc) (_st : Option Nat) (budget : Nat) : BatchOut :=
  batchIter m doc budget (docEnd doc)

/-- Run the scheduled continuations of a Pass: each entry of `budgets` is the
iteration allowance of one `decorateBatch` invocation (the first entry is the
synchronous batch run by `decorate`).  Stops as soon as a batch does not
re-arm the timer; returns the styled spans in order and the final cursor. -/
def runSched (m : Matcher) (doc : Doc) : Option Nat → List Nat → List Span × Option Nat
  | cur, [] => ([], cur)
  | cur, b :: bs =>
    let r := decorateBatchM m doc cur b
    if r.scheduled then
      let rest := runSched m doc r.cursor bs
      (r.spans ++ rest.1, rest.2)
    else (r.spans, r.cursor)

/-- Models `content.replace("\nCopyQ ", "\n")` in `LogDialog::updateLog` (line 222):
QString::replace scans left to right and resumes after each inserted
replacement, so the inserted newline is not itself rescanned as the start of
a further occurrence. -/
def replaceNL : List Char → List Char
  | [] => []
  | '\n' :: 'C' :: 'o' :: 'p' :: 'y' :: 'Q' :: ' ' :: rest => '\n' :: replaceNL rest
  | c :: rest => c :: replaceNL rest

/-- Models `content->remove(QRegExp("\n" + label + "[^\n]*"))` in `showLogLines`
(lines 51-53), as the state machine of QString::replace with an empty
replacement: after a removal the scan resumes at the removal position, so the
newline that ended the removed match is re-examined (consecutive matching
lines are all removed).  `skipping` is true while inside a matched line whose
characters are being dropped. -/
def removeLinesGo (label : List Char) : Bool → List Char → List Char
  | _, [] => []
  | skipping, c :: rest =>
    if c = '\n' then
      if label.isPrefixOf rest then removeLinesGo label true rest
      else '\n' :: removeLinesGo label false rest
    else if skipping then removeLinesGo label true rest
    else c :: removeLinesGo label false rest

/-- Models `QString::remove` of the whole-line pattern, from scan start. -/
def removeLines (label : List Char) (content : List Char) : List Char :=
  removeLinesGo label false content

/-- Models `showLogLines(QString*, bool, LogLevel)` (lines 46-54). -/
def showLogLinesM (content : List Char) (visible : Bool) (level : LogLevel) : List Char :=
  if visible then content else removeLines (logLevelLabel level) content

/-- The text part of `LogDialog::updateLog` (lines 219-230): strip the noise
prefix, then filter the five levels in source order (Error, Warning, Note,
Debug, Trace). -/
def updateLogContent (raw : List Char)
    (showError showWarning showNote showDebug showTrace : Bool) : List Char :=
  let c0 := replaceNL raw
  let c1 := showLogLinesM c0 showError .LogError
  let c2 := showLogLinesM c1 showWarning .LogWarning
  let c3 := showLogLinesM c2 showNote .LogNote
  let c4 := showLogLinesM c3 showDebug .LogDebug
  let c5 := showLogLinesM c4 showTrace .LogTrace
  c5

/-- Models `QTextEdit::setPlainText`: split the content into blocks at newlines. -/
def splitNL : List Char → List (List Char)
  | [] => [[]]
  | '\n' :: rest => [] :: splitNL rest
  | c :: rest =>
    match splitNL rest with
    | [] => [[c]]
    | l :: ls => (c :: l) :: ls

/-- Spec-side rendering of the LevelClassifier styling rule: "compares the
matched text's prefix against a fixed ordered set of known labels (Note,
Error, Warning, Debug, Trace); first prefix match wins". -/
def specLabelOrder : List (List Char × Fmt) :=
  [(logLevelLabel .LogNote, noteLogLevelFormat),
   (logLevelLabel .LogError, errorLogLevelFormat),
   (logLevelLabel .LogWarning, warningLogLevelFormat),
   (logLevelLabel .LogDebug, debugLogLevelFormat),
   (logLevelLabel .LogTrace, traceLogLevelFormat)]

/-- Spec-side classifier: the style of the first label in order that is a
prefix of the matched text, or no change. -/
def specClassify (text : List Char) : Option Fmt :=
  (specLabelOrder.find? (fun lf => lf.1.isPrefixOf text)).map Prod.snd

/-- Spec-side description of a string literal, from the claim: positions `i`
and `j` of a block delimit a matching pair of quote characters of the same
kind with no quote character of that kind strictly between them. -/
def quotedPairAt (b : Block) (i j : Nat) : Prop :=
  i < j ∧ j < b.length ∧
    (b.get? i = some dquoteChar ∨ b.get? i = some squoteChar) ∧
    b.get? j = b.get? i ∧
    ∀ k, k < j → i < k → b.get? k ≠ b.get? i

instance (b : Block) (i j : Nat) : Decidable (quotedPairAt b i j) := by
  unfold quotedPairAt; infer_instance

/-- Spec-side description of the positions covered by some string literal of
the document (quotes included), block by block. -/
def docQuotedCover : Doc → Nat → Prop
  | [], _ => False
  | b :: bs, p =>
    (∃ i j, quotedPairAt b i j ∧ i ≤ p ∧ p ≤ j) ∨
      (b.length + 1 ≤ p ∧ docQuotedCover bs (p - (b.length + 1)))

/-! Properties of the within-block backward search (`QRegExp::lastIndexIn`). -/

theorem lastMatchLE_le {m : Matcher} {b : Block} :
    ∀ {off i e}, lastMatchLE m b off = some (i, e) → i ≤ off := by
  intro off
  induction off with
  | zero =>
    intro i e h
    simp only [lastMatchLE, Option.map_eq_some'] at h
    obtain ⟨a, -, ha⟩ := h
    simp only [Prod.mk.injEq] at ha
    omega
  | succ o ih =>
    intro i e h
    rw [lastMatchLE] at h
    split at h
    · simp only [Option.some.injEq, Prod.mk.injEq] at h
      omega
    · exact Nat.le_succ_of_le (ih h)

theorem lastMatchLE_match {m : Matcher} {b : Block} :
    ∀ {off i e}, lastMatchLE m b off = some (i, e) → m b i = some e := by
  intro off
  induction off with
  | zero =>
    intro i e h
    simp only [lastMatchLE, Option.map_eq_some'] at h
    obtain ⟨a, ha, hae⟩ := h
    simp only [Prod.mk.injEq] at hae
    obtain ⟨hi, he⟩ := hae
    subst hi; subst he; exact ha
  | succ o ih =>
    intro i e h
    rw [lastMatchLE] at h
    split at h
    · rename_i e2 hm
      simp only [Option.some.injEq, Prod.mk.injEq] at h
      obtain ⟨hi, he⟩ := h
      subst hi; subst he; exact hm
    · exact ih h

theorem lastMatchLE_max {m : Matcher} {b : Block} :
    ∀ {off i e}, lastMatchLE m b off = some (i, e) →
      ∀ i2, i < i2 → i2 ≤ off → m b i2 = none := by
  intro off
  induction off with
  | zero =>
    intro i e h i2 h1 h2
    omega
  | succ o ih =>
    intro i e h i2 h1 h2
    rw [lastMatchLE] at h
    split at h
    · simp only [Option.some.injEq, Prod.mk.injEq] at h
      omega
    · rename_i hm
      rcases Nat.lt_or_ge i2 (o + 1) with h3 | h3
      · exact ih h i2 h1 (by omega)
      · have : i2 = o + 1 := by omega
        subst this; exact hm

theorem lastMatchLE_none {m : Matcher} {b : Block} :
    ∀ {off}, lastMatchLE m b off = none → ∀ i, i ≤ off → m b i = none := by
  intro off
  induction off with
  | zero =>
    intro h i hi
    have : i = 0 := by omega
    subst this
    simp only [lastMatchLE, Option.map_eq_none'] at h
    exact h
  | succ o ih =>
    intro h i hi
    rw [lastMatchLE] at h
    split at h
    · exact absurd h (by simp)
    · rename_i hm
      rcases Nat.lt_or_ge i (o + 1) with h3 | h3
      · exact ih h i (by omega)
      · have : i = o + 1 := by omega
        subst this; exact hm

/-! Properties of the document-level backward search (`QTextDocument::find`). -/

theorem findPrev_zero (m : Matcher) : ∀ doc : Doc, findPrev m doc 0 = none := by
  intro doc
  induction doc with
  | nil => rfl
  | cons b bs ih =>
    rw [findPrev]
    have h0 : (0 : Nat) - (b.length + 1) = 0 := by omega
    rw [h0, ih]
    simp

theorem findPrev_lt {m : Matcher} :
    ∀ {doc : Doc} {pos : Nat} {sp : Span}, findPrev m doc pos = some sp → sp.s < pos := by
  intro doc
  induction doc with
  | nil => intro pos sp h; exact absurd h (by simp [findPrev])
  | cons b bs ih =>
    intro pos sp h
    rw [findPrev] at h
    split at h
    · rename_i sp2 hrec
      have h2 := ih hrec
      simp only [Option.some.injEq] at h
      subst h
      simp only
      omega
    · split at h
      · exact absurd h (by simp)
      · rename_i hpos
        split at h
        · rename_i ie hlast
          have h2 := lastMatchLE_le hlast
          simp only [Option.some.injEq] at h
          subst h
          simp only
          omega
        · exact absurd h (by simp)

theorem findPrev_gMatch {m : Matcher} :
    ∀ {doc : Doc} {pos : Nat} {sp : Span},
      findPrev m doc pos = some sp → gMatch m doc sp.s = some (sp.e, sp.txt) := by
  intro doc
  induction doc with
  | nil => intro pos sp h; exact absurd h (by simp [findPrev])
  | cons b bs ih =>
    intro pos sp h
    rw [findPrev] at h
    split at h
    · rename_i sp2 hrec
      have h2 := ih hrec
      simp only [Option.some.injEq] at h
      subst h
      simp only [gMatch]
      have hgt : ¬ (sp2.s + (b.length + 1) ≤ b.length) := by omega
      rw [if_neg hgt]
      have harith : sp2.s + (b.length + 1) - (b.length + 1) = sp2.s := by omega
      rw [harith, h2]
      rfl
    · split at h
      · exact absurd h (by simp)
      · rename_i hpos
        split at h
        · rename_i ie hlast
          have hle := lastMatchLE_le hlast
          have hm := lastMatchLE_match hlast
          simp only [Option.some.injEq] at h
          subst h
          simp only [gMatch]
          have hle2 : ie.1 ≤ b.length := by omega
          rw [if_pos hle2, hm]
          rfl
        · exact absurd h (by simp)

theorem findPrev_none {m : Matcher} :
    ∀ {doc : Doc} {pos : Nat}, findPrev m doc pos = none →
      ∀ s, s < pos → gMatch m doc s = none := by
  intro doc
  induction doc with
  | nil => intro pos h s hs; rfl
  | cons b bs ih =>
    intro pos h s hs
    rw [findPrev] at h
    split at h
    · exact absurd h (by simp)
    · rename_i hrec
      rw [gMatch]
      rcases Nat.lt_or_ge b.length s with hgt | hle
      · have hgt2 : ¬ (s ≤ b.length) := by omega
        rw [if_neg hgt2]
        have : gMatch m bs (s - (b.length + 1)) = none := ih hrec _ (by omega)
        rw [this]; rfl
      · rw [if_pos hle]
        split at h
        · omega
        · split at h
          · exact absurd h (by simp)
          · rename_i hpos hnone
            have : m b s = none := by
              apply lastMatchLE_none hnone
              omega
            rw [this]; rfl

theorem findPrev_max {m : Matcher} :
    ∀ {doc : Doc} {pos : Nat} {sp : Span}, findPrev m doc pos = some sp →
      ∀ s, sp.s < s → s < pos → gMatch m doc s = none := by
  intro doc
  induction doc with
  | nil => intro pos sp h; exact absurd h (by simp [findPrev])
  | cons b bs ih =>
    intro pos sp h s hs1 hs2
    rw [findPrev] at h
    split at h
    · rename_i sp2 hrec
      simp only [Option.some.injEq] at h
      subst h
      simp only at hs1
      have hlt := findPrev_lt hrec
      rw [gMatch]
      have hgt2 : ¬ (s ≤ b.length) := by omega
      rw [if_neg hgt2]
      have : gMatch m bs (s - (b.length + 1)) = none := by
        apply ih hrec
        · omega
        · omega
      rw [this]; rfl
    · rename_i hrec
      split at h
      · exact absurd h (by simp)
      · rename_i hpos
        split at h
        · rename_i ie hlast
          simp only [Option.some.injEq] at h
          subst h
          simp only at hs1
          rw [gMatch]
          rcases Nat.lt_or_ge b.length s with hgt | hle
          · have hgt2 : ¬ (s ≤ b.length) := by omega
            rw [if_neg hgt2]
            have : gMatch m bs (s - (b.length + 1)) = none :=
              findPrev_none hrec _ (by omega)
            rw [this]; rfl
          · rw [if_pos hle]
            have hsoff : s ≤ min (pos - 1) b.length := by omega
            have : m b s = none := lastMatchLE_max hlast s hs1 hsoff
            rw [this]; rfl
        · exact absurd h (by simp)

/-! Properties of a full Pass (`passSpans`). -/

theorem passSpansGo_irrel {m : Matcher} {doc : Doc} :
    ∀ (f g pos : Nat), pos ≤ f → pos ≤ g →
      passSpansGo m doc f pos = passSpansGo m doc g pos := by
  intro f
  induction f with
  | zero =>
    intro g pos hf hg
    have : pos = 0 := by omega
    subst this
    cases g with
    | zero => rfl
    | succ g2 =>
      rw [passSpansGo, passSpansGo, findPrev_zero]
  | succ f2 ih =>
    intro g pos hf hg
    cases g with
    | zero =>
      have : pos = 0 := by omega
      subst this
      rw [passSpansGo, passSpansGo, findPrev_zero]
    | succ g2 =>
      rw [passSpansGo, passSpansGo]
      cases h : findPrev m doc pos with
      | none => rfl
      | some sp =>
        have hlt := findPrev_lt h
        exact congrArg (List.cons sp) (ih g2 sp.s (by omega) (by omega))

theorem passSpans_nil {m : Matcher} {doc : Doc} {pos : Nat}
    (h : findPrev m doc pos = none) : passSpans m doc pos = [] := by
  unfold passSpans
  cases pos with
  | zero => rfl
  | succ q => rw [passSpansGo, h]

theorem passSpans_cons {m : Matcher} {doc : Doc} {pos : Nat} {sp : Span}
    (h : findPrev m doc pos = some sp) :
    passSpans m doc pos = sp :: passSpans m doc sp.s := by
  unfold passSpans
  have hlt := findPrev_lt h
  cases pos with
  | zero => rw [findPrev_zero] at h; exact absurd h (by simp)
  | succ q =>
    rw [passSpansGo, h]
    exact congrArg (List.cons sp) (passSpansGo_irrel q sp.s sp.s (by omega) (by omega))

theorem passSpans_mem_lt {m : Matcher} {doc : Doc} :
    ∀ {pos : Nat} {sp : Span}, sp ∈ passSpans m doc pos → sp.s < pos := by
  intro pos
  induction pos using Nat.strong_induction_on with
  | _ pos ih =>
    intro sp hmem
    cases h : findPrev m doc pos with
    | none => rw [passSpans_nil h] at hmem; exact absurd hmem (by simp)
    | some sp0 =>
      rw [passSpans_cons h] at hmem
      have hlt := findPrev_lt h
      rcases List.mem_cons.mp hmem with heq | hmem2
      · subst heq; exact hlt
      · exact Nat.lt_trans (ih sp0.s hlt hmem2) hlt

theorem passSpans_pairwise (m : Matcher) (doc : Doc) :
    ∀ pos : Nat, List.Pairwise (fun a c => c.s < a.s) (passSpans m doc pos) := by
  intro pos
  induction pos using Nat.strong_induction_on with
  | _ pos ih =>
    cases h : findPrev m doc pos with
    | none => rw [passSpans_nil h]; exact List.Pairwise.nil
    | some sp0 =>
      rw [passSpans_cons h]
      have hlt := findPrev_lt h
      exact List.Pairwise.cons (fun x hx => passSpans_mem_lt hx) (ih sp0.s hlt)

theorem passSpans_nil_iff {m : Matcher} {doc : Doc} {pos : Nat} :
    passSpans m doc pos = [] ↔ findPrev m doc pos = none := by
  constructor
  · intro h
    cases hf : findPrev m doc pos with
    | none => rfl
    | some sp => rw [passSpans_cons hf] at h; exact absurd h (by simp)
  · exact passSpans_nil

theorem mem_passSpans {m : Matcher} {doc : Doc} :
    ∀ {pos : Nat} {sp : Span},
      sp ∈ passSpans m doc pos ↔ sp.s < pos ∧ gMatch m doc sp.s = some (sp.e, sp.txt) := by
  intro pos
  induction pos using Nat.strong_induction_on with
  | _ pos ih =>
    intro sp
    constructor
    · intro hmem
      cases h : findPrev m doc pos with
      | none => rw [passSpans_nil h] at hmem; exact absurd hmem (by simp)
      | some sp0 =>
        rw [passSpans_cons h] at hmem
        have hlt := findPrev_lt h
        rcases List.mem_cons.mp hmem with heq | hmem2
        · subst heq
          exact ⟨hlt, findPrev_gMatch h⟩
        · have h2 := (ih sp0.s hlt).mp hmem2
          exact ⟨Nat.lt_trans h2.1 hlt, h2.2⟩
    · rintro ⟨hs, hg⟩
      cases h : findPrev m doc pos with
      | none =>
        have := findPrev_none h sp.s hs
        rw [this] at hg
        exact absurd hg (by simp)
      | some sp0 =>
        rw [passSpans_cons h]
        have hlt := findPrev_lt h
        rcases Nat.lt_trichotomy sp.s sp0.s with h1 | h1 | h1
        · exact List.mem_cons_of_mem _ ((ih sp0.s hlt).mpr ⟨h1, hg⟩)
        · have hg0 := findPrev_gMatch h
          rw [h1] at hg
          rw [hg0] at hg
          simp only [Option.some.injEq, Prod.mk.injEq] at hg
          have : sp = sp0 := by
            cases sp; cases sp0
            simp_all
          rw [this]
          exact List.mem_cons_self _ _
        · have := findPrev_max h sp.s h1 hs
          rw [this] at hg
          exact absurd hg (by simp)

/-! Properties of the time-sliced batches. -/

theorem batchIter_spans {m : Matcher} {doc : Doc} :
    ∀ (budget pos : Nat),
      (batchIter m doc budget pos).spans = (passSpans m doc pos).take (budget + 1) := by
  intro budget
  induction budget with
  | zero =>
    intro pos
    rw [batchIter]
    cases h : findPrev m doc pos with
    | none => rw [passSpans_nil h]; rfl
    | some sp => rw [passSpans_cons h]; rfl
  | succ b ih =>
    intro pos
    rw [batchIter]
    cases h : findPrev m doc pos with
    | none => rw [passSpans_nil h]; rfl
    | some sp =>
      rw [passSpans_cons h]
      simp only [List.take_succ_cons, List.cons.injEq, true_and]
      exact ih sp.s

theorem batchIter_cases {m : Matcher} {doc : Doc} :
    ∀ (budget pos : Nat),
      ((batchIter m doc budget pos).scheduled = false ∧
        (batchIter m doc budget pos).cursor = none ∧
        (batchIter m doc budget pos).spans = passSpans m doc pos) ∨
      ((batchIter m doc budget pos).scheduled = true ∧
        ∃ q, (batchIter m doc budget pos).cursor = some q ∧
          (batchIter m doc budget pos).spans ≠ [] ∧
          passSpans m doc pos = (batchIter m doc budget pos).spans ++ passSpans m doc q) := by
  intro budget
  induction budget with
  | zero =>
    intro pos
    rw [batchIter]
    cases h : findPrev m doc pos with
    | none => exact Or.inl ⟨rfl, rfl, (passSpans_nil h).symm⟩
    | some sp =>
      refine Or.inr ⟨rfl, sp.s, rfl, by simp, ?_⟩
      rw [passSpans_cons h]
      rfl
  | succ b ih =>
    intro pos
    rw [batchIter]
    cases h : findPrev m doc pos with
    | none => exact Or.inl ⟨rfl, rfl, (passSpans_nil h).symm⟩
    | some sp =>
      rcases ih sp.s with ⟨hs, hc, hsp⟩ | ⟨hs, q, hc, hne, happ⟩
      · refine Or.inl ⟨hs, hc, ?_⟩
        simp only
        rw [hsp, passSpans_cons h]
      · refine Or.inr ⟨hs, q, hc, by simp, ?_⟩
        simp only
        rw [passSpans_cons h, happ]
        rfl

theorem batchIter_head {m : Matcher} {doc : Doc} {pos : Nat} {sp : Span}
    (h : findPrev m doc pos = some sp) :
    ∀ budget, (batchIter m doc budget pos).spans.head? = some sp := by
  intro budget
  cases budget with
  | zero => rw [batchIter, h]; rfl
  | succ b => rw [batchIter, h]; rfl

theorem batchIter_nil_iff {m : Matcher} {doc : Doc} {pos : Nat} {budget : Nat} :
    (batchIter m doc budget pos).spans = [] ↔ findPrev m doc pos = none := by
  constructor
  · intro h
    cases hf : findPrev m doc pos with
    | none => rfl
    | some sp =>
      have := batchIter_head hf budget
      rw [h] at this
      exact absurd this (by simp)
  · intro hf
    cases budget with
    | zero => rw [batchIter, hf]
    | succ b => rw [batchIter, hf]

theorem runSched_complete {m : Matcher} {doc : Doc} :
    ∀ (budgets : List Nat) (pos : Nat),
      (passSpans m doc pos).length + 1 ≤ budgets.length →
      runSched m doc (some pos) budgets = (passSpans m doc pos, none) := by
  intro budgets
  induction budgets with
  | nil => intro pos h; simp at h
  | cons b bs ih =>
    intro pos h
    rw [runSched]
    simp only [decorateBatchM]
    rcases @batchIter_cases m doc b pos with ⟨hs, hc, hsp⟩ | ⟨hs, q, hc, hne, happ⟩
    · rw [hs]
      simp only [Bool.false_eq_true, if_false]
      rw [hsp, hc]
    · rw [hs]
      simp only [if_true]
      rw [hc]
      have hlen : (passSpans m doc q).length + 1 ≤ bs.length := by
        have h1 : (passSpans m doc pos).length =
            (batchIter m doc b pos).spans.length + (passSpans m doc q).length := by
          rw [happ, List.length_append]
        have h2 : 1 ≤ (batchIter m doc b pos).spans.length := by
          cases hsp : (batchIter m doc b pos).spans with
          | nil => exact absurd hsp hne
          | cons x xs => simp
        simp only [List.length_cons] at h
        omega
      rw [ih q hlen]
      rw [happ]

theorem batchIter_head_eq {m : Matcher} {doc : Doc} (budget pos : Nat) :
    (batchIter m doc budget pos).spans.head? = findPrev m doc pos := by
  cases h : findPrev m doc pos with
  | none =>
    cases budget with
    | zero => rw [batchIter, h]; rfl
    | succ b => rw [batchIter, h]; rfl
  | some sp => exact batchIter_head h budget

/-- C5: for every finite Document and every per-batch time budget (the
`do`-`while` loop always runs at least one iteration, so a positive wall-clock
budget corresponds to an arbitrary `Nat` iteration allowance per batch), a
Pass started at `pos` visits match positions in strictly decreasing order,
never revisits a position, completes within `length of the visited spans + 1`
scheduled `decorateBatch` invocations (ending with a null cursor and no
pending timer), and it terminates exactly when no match exists before the
cursor. -/
theorem c5_pass_termination (m : Matcher) (doc : Doc) (pos : Nat) (budgets : List Nat)
    (h : (passSpans m doc pos).length + 1 ≤ budgets.length) :
    runSched m doc (some pos) budgets = (passSpans m doc pos, none) ∧
    List.Pairwise (fun a c => c.s < a.s) (passSpans m doc pos) ∧
    (passSpans m doc pos = [] ↔ findPrev m doc pos = none) ∧
    (findPrev m doc pos = none ↔ ∀ s, s < pos → gMatch m doc s = none) := by
  refine ⟨runSched_complete budgets pos h, passSpans_pairwise m doc pos, passSpans_nil_iff, ?_⟩
  constructor
  · exact fun hn s hs => findPrev_none hn s hs
  · intro hall
    cases hf : findPrev m doc pos with
    | none => rfl
    | some sp =>
      have h1 := findPrev_lt hf
      have h2 := findPrev_gMatch hf
      have h3 := hall sp.s h1
      rw [h3] at h2
      exact absurd h2 (by simp)

theorem c5_pass_termination_witness :
    runSched stringMatchAt (splitNL "'a' \"b\"\n".data)
        (some (docEnd (splitNL "'a' \"b\"\n".data))) [0, 0, 0] =
      (passSpans stringMatchAt (splitNL "'a' \"b\"\n".data)
        (docEnd (splitNL "'a' \"b\"\n".data)), none) ∧
    List.Pairwise (fun a c => c.s < a.s)
      (passSpans stringMatchAt (splitNL "'a' \"b\"\n".data)
        (docEnd (splitNL "'a' \"b\"\n".data))) ∧
    (passSpans stringMatchAt (splitNL "'a' \"b\"\n".data)
        (docEnd (splitNL "'a' \"b\"\n".data)) = [] ↔
      findPrev stringMatchAt (splitNL "'a' \"b\"\n".data)
        (docEnd (splitNL "'a' \"b\"\n".data)) = none) ∧
    (findPrev stringMatchAt (splitNL "'a' \"b\"\n".data)
        (docEnd (splitNL "'a' \"b\"\n".data)) = none ↔
      ∀ s, s < docEnd (splitNL "'a' \"b\"\n".data) →
        gMatch stringMatchAt (splitNL "'a' \"b\"\n".data) s = none) :=
  c5_pass_termination stringMatchAt (splitNL "'a' \"b\"\n".data)
    (docEnd (splitNL "'a' \"b\"\n".data)) [0, 0, 0] (by decide)

/-- C7: `Decorator::decorate(document)` overwrites `m_tc` with a cursor at
the end of `document` regardless of the scanner's previous state (so any
prior in-flight Pass is superseded), and synchronously runs one
`decorateBatch`: the head of the spans styled before `decorate` returns is
exactly the result of the first backward search from the document end, and a
continuation that later fires operates on the cursor produced by that batch,
independent of the superseded state. -/
theorem c7_decorate_supersedes (m : Matcher) (doc : Doc) (st st2 : Option Nat) (budget : Nat) :
    decorateM m doc st budget = decorateM m doc st2 budget ∧
    decorateM m doc st budget = batchIter m doc budget (docEnd doc) ∧
    (decorateM m doc st budget).spans.head? = findPrev m doc (docEnd doc) ∧
    (∀ b2, decorateBatchM m doc (decorateM m doc st budget).cursor b2 =
      decorateBatchM m doc (decorateM m doc st2 budget).cursor b2) := by
  exact ⟨rfl, rfl, batchIter_head_eq budget (docEnd doc), fun b2 => rfl⟩

/-- C8: a scheduled `decorateBatch` continuation whose cursor has become null
(which is what `QTextCursor` does when the document it refers to is destroyed,
or when the scanner's Pass finished) returns at the `m_tc.isNull()` guard:
it styles nothing, keeps the null cursor, schedules nothing, and its behavior
does not depend on the document at all — the stale document is never
accessed. -/
theorem c8_stale_continuation (m : Matcher) (doc doc2 : Doc) (budget : Nat) :
    decorateBatchM m doc none budget = ⟨[], none, false⟩ ∧
    decorateBatchM m doc none budget = decorateBatchM m doc2 none budget :=
  ⟨rfl, rfl⟩

/-- C9: every `decorateBatch` invocation with a valid cursor performs its
backward search before the elapsed-time budget is consulted (the check sits
at the bottom of a `do`-`while` loop), so even with a zero iteration
allowance the batch styles the first preceding match when one exists: the
head of the styled spans equals the result of the backward search, and the
batch styles nothing exactly when no match precedes the cursor. -/
theorem c9_batch_progress (m : Matcher) (doc : Doc) (pos budget : Nat) :
    (batchIter m doc budget pos).spans.head? = findPrev m doc pos ∧
    ((batchIter m doc budget pos).spans = [] ↔ findPrev m doc pos = none) :=
  ⟨batchIter_head_eq budget pos, batchIter_nil_iff⟩

theorem c9_batch_progress_witness :
    (batchIter stringMatchAt (splitNL "'a'\n".data) 0 4).spans.head? =
      findPrev stringMatchAt (splitNL "'a'\n".data) 4 ∧
    ((batchIter stringMatchAt (splitNL "'a'\n".data) 0 4).spans = [] ↔
      findPrev stringMatchAt (splitNL "'a'\n".data) 4 = none) :=
  c9_batch_progress stringMatchAt (splitNL "'a'\n".data) 4 0

/-! The style overlay produced by a sequence of strategy invocations. -/

/-- The format written by the latest covering write among the spans `l`
(visit order), if any: later writes in the fold override earlier ones. -/
def lastWrite (hook : List Char → Option Fmt) : List Span → Nat → Option Fmt
  | [], _ => none
  | sp :: rest, p =>
    match lastWrite hook rest p with
    | some f => some f
    | none =>
      match hook sp.txt with
      | some f => if sp.s ≤ p ∧ p < sp.e then some f else none
      | none => none

theorem applySpans_eq_lastWrite (hook : List Char → Option Fmt) :
    ∀ (l : List Span) (ov : Overlay) (p : Nat),
      applySpans hook ov l p =
        match lastWrite hook l p with
        | some f => some f
        | none => ov p := by
  intro l
  induction l with
  | nil => intro ov p; rfl
  | cons sp rest ih =>
    intro ov p
    rw [applySpans, ih]
    cases hlw : lastWrite hook rest p with
    | some f => rw [lastWrite, hlw]
    | none =>
      rw [lastWrite, hlw]
      simp only [applyHook]
      cases hh : hook sp.txt with
      | none => rfl
      | some f =>
        simp only [setFmt]
        by_cases hc : sp.s ≤ p ∧ p < sp.e
        · rw [if_pos hc, if_pos hc]
        · rw [if_neg hc, if_neg hc]

/-- C6: running a full Pass of the same Pattern and Strategy a second time on
unchanged document text produces exactly the overlay of the first run: the
second run replays the identical write sequence, so every position's final
format is unchanged (a completed Pass is idempotent). -/
theorem c6_pass_idempotent (m : Matcher) (hook : List Char → Option Fmt) (doc : Doc)
    (ov : Overlay) (p : Nat) :
    runPassOv m hook doc (runPassOv m hook doc ov) p = runPassOv m hook doc ov p := by
  unfold runPassOv
  rw [applySpans_eq_lastWrite, applySpans_eq_lastWrite]
  cases hlw : lastWrite hook (passSpans m doc (docEnd doc)) p with
  | some f => rfl
  | none => rfl

/-- C3: the LevelClassifier styling hook agrees everywhere with the spec's
rule "first prefix match among the ordered labels Note, Error, Warning,
Debug, Trace wins; no match leaves the default style"; on the document
`"Error: failed\n"` the level Pass styles exactly the span `"Error: "`
(positions 0 to 6) with the Error format, and on `"Unknown: hi\n"` the
matched span gets no styling at all (the overlay stays empty). -/
theorem c3_label_classification :
    (∀ text, logLevelHook text = specClassify text) ∧
    passSpans levelMatchAt (splitNL "Error: failed\n".data)
        (docEnd (splitNL "Error: failed\n".data)) = [⟨0, 7, "Error: ".data⟩] ∧
    runPassOv levelMatchAt logLevelHook (splitNL "Error: failed\n".data) emptyOv =
      setFmt 0 7 errorLogLevelFormat emptyOv ∧
    passSpans levelMatchAt (splitNL "Unknown: hi\n".data)
        (docEnd (splitNL "Unknown: hi\n".data)) = [⟨0, 9, "Unknown: ".data⟩] ∧
    runPassOv levelMatchAt logLevelHook (splitNL "Unknown: hi\n".data) emptyOv = emptyOv := by
  refine ⟨?_, by decide, rfl, by decide, rfl⟩
  intro text
  simp only [logLevelHook, specClassify, specLabelOrder, List.find?]
  by_cases h1 : (logLevelLabel .LogNote).isPrefixOf text <;>
    by_cases h2 : (logLevelLabel .LogError).isPrefixOf text <;>
      by_cases h3 : (logLevelLabel .LogWarning).isPrefixOf text <;>
        by_cases h4 : (logLevelLabel .LogDebug).isPrefixOf text <;>
          by_cases h5 : (logLevelLabel .LogTrace).isPrefixOf text <;>
            simp [h1, h2, h3, h4, h5]

/-! Properties of the greedy `^.*: ` match. -/

theorem hasColonSpaceAt_succ (c : Char) (rest : List Char) (j : Nat) :
    hasColonSpaceAt (c :: rest) (j + 1) = hasColonSpaceAt rest j := by
  simp [hasColonSpaceAt, List.get?]

theorem hasColonSpaceAt_zero (c : Char) (rest : List Char) :
    hasColonSpaceAt (c :: rest) 0 = true ↔ (c = ':' ∧ rest.head? = some ' ') := by
  cases rest with
  | nil => simp [hasColonSpaceAt, List.get?]
  | cons c2 rest2 => simp [hasColonSpaceAt, List.get?, and_comm]

theorem lastColonSpace_none :
    ∀ {b : List Char}, lastColonSpace b = none → ∀ k, hasColonSpaceAt b k = false := by
  intro b
  induction b with
  | nil => intro h k; simp [hasColonSpaceAt]
  | cons c rest ih =>
    intro h k
    rw [lastColonSpace] at h
    split at h
    · exact absurd h (by simp)
    · rename_i heq
      split at h
      · exact absurd h (by simp)
      · rename_i hcond
        cases k with
        | zero =>
          rw [Bool.eq_false_iff]
          intro habs
          exact hcond ((hasColonSpaceAt_zero c rest).mp habs)
        | succ k2 => rw [hasColonSpaceAt_succ]; exact ih heq k2

theorem lastColonSpace_has :
    ∀ {b : List Char} {j : Nat}, lastColonSpace b = some j → hasColonSpaceAt b j = true := by
  intro b
  induction b with
  | nil => intro j h; exact absurd h (by simp [lastColonSpace])
  | cons c rest ih =>
    intro j h
    rw [lastColonSpace] at h
    split at h
    · rename_i j2 heq
      simp only [Option.some.injEq] at h
      subst h
      rw [hasColonSpaceAt_succ]
      exact ih heq
    · split at h
      · rename_i heq hcond
        simp only [Option.some.injEq] at h
        subst h
        exact (hasColonSpaceAt_zero c rest).mpr hcond
      · exact absurd h (by simp)

theorem lastColonSpace_max :
    ∀ {b : List Char} {j : Nat}, lastColonSpace b = some j →
      ∀ k, j < k → hasColonSpaceAt b k = false := by
  intro b
  induction b with
  | nil => intro j h; exact absurd h (by simp [lastColonSpace])
  | cons c rest ih =>
    intro j h k hk
    rw [lastColonSpace] at h
    split at h
    · rename_i j2 heq
      simp only [Option.some.injEq] at h
      subst h
      cases k with
      | zero => omega
      | succ k2 => rw [hasColonSpaceAt_succ]; exact ih heq k2 (by omega)
    · split at h
      · rename_i heq hcond
        simp only [Option.some.injEq] at h
        subst h
        cases k with
        | zero => omega
        | succ k2 => rw [hasColonSpaceAt_succ]; exact lastColonSpace_none heq k2
      · exact absurd h (by simp)

theorem hasColonSpaceAt_le_length {b : List Char} {j : Nat}
    (h : hasColonSpaceAt b j = true) : j + 2 ≤ b.length := by
  simp only [hasColonSpaceAt, Bool.and_eq_true, beq_iff_eq] at h
  obtain ⟨hlt, -⟩ := List.get?_eq_some.mp h.2
  omega

/-- C2, counterexample: the claim says every match of the LevelClassifier
pattern ends at the first `": "` of its line and contains no other `": "`.
On the line `"a: b: c"` the first `": "` is at index 1 (and none at 0), so
the claimed span would be `[0, 3)`; but QRegExp's greedy `.*` makes the
pattern match `[0, 6)`, a span that contains a second `": "` at index 4. -/
theorem c2_counterexample :
    levelMatchAt "a: b: c".data 0 = some 6 ∧
    hasColonSpaceAt "a: b: c".data 1 = true ∧
    hasColonSpaceAt "a: b: c".data 0 = false ∧
    (1 + 2 : Nat) ≠ 6 ∧
    hasColonSpaceAt "a: b: c".data 4 = true ∧
    4 + 2 ≤ 6 := by
  refine ⟨by decide, by decide, by decide, by decide, by decide, by decide⟩

/-- C2, amended: every match produced by the LevelClassifier pattern on a
line is a leading span: it starts at the line start (offset 0), ends just
after a `": "` occurrence, and that occurrence is the last `": "` of the
whole line (no `": "` starts at any later index). -/
theorem c2_level_match_shape (b : Block) (i e : Nat) (h : levelMatchAt b i = some e) :
    i = 0 ∧ 2 ≤ e ∧ e ≤ b.length ∧ hasColonSpaceAt b (e - 2) = true ∧
    ∀ k, e - 2 < k → hasColonSpaceAt b k = false := by
  unfold levelMatchAt at h
  split at h
  · rename_i hi
    simp only [Option.map_eq_some'] at h
    obtain ⟨j, hj, hje⟩ := h
    have h1 := lastColonSpace_has hj
    have h2 := hasColonSpaceAt_le_length h1
    have hj2 : j = e - 2 := by omega
    subst hj2
    refine ⟨hi, by omega, by omega, h1, ?_⟩
    intro k hk
    exact lastColonSpace_max hj k hk
  · exact absurd h (by simp)

theorem c2_level_match_shape_witness :
    (0 : Nat) = 0 ∧ 2 ≤ 6 ∧ 6 ≤ "a: b: c".data.length ∧
    hasColonSpaceAt "a: b: c".data (6 - 2) = true ∧
    ∀ k, 6 - 2 < k → hasColonSpaceAt "a: b: c".data k = false :=
  c2_level_match_shape "a: b: c".data 0 6 (by decide)

/-! Properties of the `updateLog` text pipeline. -/

theorem replaceNL_cons_ne {c : Char} (cs : List Char) (h : c ≠ '\n') :
    replaceNL (c :: cs) = c :: replaceNL cs := by
  rw [replaceNL.eq_def]
  split
  · rename_i heq
    exact absurd heq (by simp)
  · rename_i rest heq
    injection heq with h1 h2
    exact absurd h1 h
  · rename_i x c2 rest2 hmiss heq
    injection heq with h1 h2
    subst h1; subst h2
    rfl

theorem replaceNL_append_no_nl :
    ∀ (l1 rest : List Char), '\n' ∉ l1 → replaceNL (l1 ++ rest) = l1 ++ replaceNL rest := by
  intro l1
  induction l1 with
  | nil => intro rest h; rfl
  | cons c t ih =>
    intro rest h
    have hc : c ≠ '\n' := fun habs => h (habs ▸ List.mem_cons_self c t)
    rw [List.cons_append, replaceNL_cons_ne _ hc,
      ih rest (fun habs => h (List.mem_cons_of_mem c habs))]
    rfl

theorem removeLinesGo_append_no_nl (label : List Char) :
    ∀ (l1 rest : List Char), '\n' ∉ l1 →
      removeLinesGo label false (l1 ++ rest) = l1 ++ removeLinesGo label false rest := by
  intro l1
  induction l1 with
  | nil => intro rest h; rfl
  | cons c t ih =>
    intro rest h
    have hc : c ≠ '\n' := fun habs => h (habs ▸ List.mem_cons_self c t)
    rw [List.cons_append, removeLinesGo, if_neg hc]
    simp only [Bool.false_eq_true, if_false]
    rw [ih rest (fun habs => h (List.mem_cons_of_mem c habs))]
    rfl

theorem removeLinesGo_skip (label : List Char) :
    ∀ (line rest : List Char), '\n' ∉ line →
      removeLinesGo label true (line ++ rest) = removeLinesGo label true rest := by
  intro line
  induction line with
  | nil => intro rest h; rfl
  | cons c t ih =>
    intro rest h
    have hc : c ≠ '\n' := fun habs => h (habs ▸ List.mem_cons_self c t)
    rw [List.cons_append, removeLinesGo, if_neg hc, if_pos rfl]
    exact ih rest (fun habs => h (List.mem_cons_of_mem c habs))

theorem removeLinesGo_true_nl (label : List Char) (r : List Char) :
    removeLinesGo label true ('\n' :: r) = removeLinesGo label false ('\n' :: r) := by
  rw [removeLinesGo, removeLinesGo]
  simp

theorem isPrefixOf_append_left :
    ∀ {l1 l2 : List Char} (l3 : List Char), l1.isPrefixOf l2 = true →
      l1.isPrefixOf (l2 ++ l3) = true := by
  intro l1
  induction l1 with
  | nil => intro l2 l3 h; simp [List.isPrefixOf]
  | cons a t ih =>
    intro l2 l3 h
    cases l2 with
    | nil => simp [List.isPrefixOf] at h
    | cons b t2 =>
      simp only [List.isPrefixOf, Bool.and_eq_true] at h
      rw [List.cons_append]
      simp only [List.isPrefixOf, Bool.and_eq_true]
      exact ⟨h.1, ih l3 h.2⟩

theorem removeLinesGo_removed_line (label line rest : List Char)
    (hnl : '\n' ∉ line) (hpre : label.isPrefixOf line = true) :
    removeLinesGo label false ('\n' :: (line ++ '\n' :: rest)) =
      removeLinesGo label false ('\n' :: rest) := by
  rw [removeLinesGo, if_pos rfl, if_pos (isPrefixOf_append_left _ hpre)]
  rw [removeLinesGo_skip label line ('\n' :: rest) hnl]
  exact removeLinesGo_true_nl label rest

theorem removeLinesGo_removed_last (label line : List Char)
    (hnl : '\n' ∉ line) (hpre : label.isPrefixOf line = true) :
    removeLinesGo label false ('\n' :: line) = [] := by
  rw [removeLinesGo, if_pos rfl, if_pos hpre]
  have : line = line ++ [] := by simp
  rw [this, removeLinesGo_skip label line [] hnl]
  rfl

/-- C10: both the `"\nCopyQ "` noise-prefix replacement and the
invisible-level line filter only match occurrences that begin with a newline
character, so the first line of the content is kept verbatim by both (its
`"CopyQ "` prefix is not stripped and it is never removed, whatever its
label), while each subsequent line has its prefix stripped and, when its
label is filtered, is removed in full (also when it is the last line); the
concrete pipeline run shows a first `Note` line surviving a `Note` filter
that removes the later `Note` lines. -/
theorem c10_first_line_kept :
    (∀ (l1 rest : List Char), '\n' ∉ l1 → replaceNL (l1 ++ rest) = l1 ++ replaceNL rest) ∧
    (∀ (label l1 rest : List Char), '\n' ∉ l1 →
      removeLinesGo label false (l1 ++ rest) = l1 ++ removeLinesGo label false rest) ∧
    (∀ rest : List Char, replaceNL ('\n' :: ("CopyQ ".data ++ rest)) = '\n' :: replaceNL rest) ∧
    (∀ (label line rest : List Char), '\n' ∉ line → label.isPrefixOf line = true →
      removeLinesGo label false ('\n' :: (line ++ '\n' :: rest)) =
        removeLinesGo label false ('\n' :: rest)) ∧
    (∀ (label line : List Char), '\n' ∉ line → label.isPrefixOf line = true →
      removeLinesGo label false ('\n' :: line) = []) ∧
    updateLogContent "CopyQ Note: first\nCopyQ Note: second\nCopyQ Error: e\n".data
        true true false true true = "CopyQ Note: first\nError: e\n".data := by
  refine ⟨replaceNL_append_no_nl, ?_, fun rest => rfl, removeLinesGo_removed_line,
    removeLinesGo_removed_last, by decide⟩
  intro label l1 rest h
  exact removeLinesGo_append_no_nl label l1 rest h

theorem c10_first_line_kept_witness :
    replaceNL ("CopyQ A".data ++ "\nCopyQ B".data) = "CopyQ A".data ++ replaceNL "\nCopyQ B".data ∧
    removeLinesGo "Note".data false ("Note: a".data ++ "\nNote: b".data) =
      "Note: a".data ++ removeLinesGo "Note".data false "\nNote: b".data :=
  ⟨c10_first_line_kept.1 "CopyQ A".data "\nCopyQ B".data (by decide),
   c10_first_line_kept.2.1 "Note".data "Note: a".data "\nNote: b".data (by decide)⟩

/-- C1, counterexample: the refresh pipeline on the raw log text
`"CopyQ Error: failed 'x' here\nCopyQ Note: ok\n"` with Error visible and
Note invisible does not produce the claimed text
`"Error: failed 'x' here\n"`: the `"CopyQ "` replacement only matches
occurrences preceded by a newline, so the first line keeps its prefix. -/
theorem c1_counterexample :
    updateLogContent "CopyQ Error: failed 'x' here\nCopyQ Note: ok\n".data
        true true false true true ≠ "Error: failed 'x' here\n".data := by
  decide

/-- C1, amended: on the same scenario the resulting document text is
`"CopyQ Error: failed 'x' here\n"` (the first line's `"CopyQ "` prefix
survives); the level pattern matches the span `"CopyQ Error: "`, which starts
with no known label, so the LevelClassifier styles nothing; the
StringLiteralMarker then styles exactly the span `"'x'"` (positions 20-22)
with the String format, and this is the whole final overlay after both
decorator passes run in orchestration order. -/
theorem c1_scenario :
    updateLogContent "CopyQ Error: failed 'x' here\nCopyQ Note: ok\n".data
        true true false true true = "CopyQ Error: failed 'x' here\n".data ∧
    passSpans levelMatchAt (splitNL "CopyQ Error: failed 'x' here\n".data)
        (docEnd (splitNL "CopyQ Error: failed 'x' here\n".data)) =
      [⟨0, 13, "CopyQ Error: ".data⟩] ∧
    logLevelHook "CopyQ Error: ".data = none ∧
    runPassOv levelMatchAt logLevelHook
        (splitNL "CopyQ Error: failed 'x' here\n".data) emptyOv = emptyOv ∧
    passSpans stringMatchAt (splitNL "CopyQ Error: failed 'x' here\n".data)
        (docEnd (splitNL "CopyQ Error: failed 'x' here\n".data)) =
      [⟨20, 23, "'x'".data⟩] ∧
    runPassOv stringMatchAt stringHook (splitNL "CopyQ Error: failed 'x' here\n".data)
        (runPassOv levelMatchAt logLevelHook
          (splitNL "CopyQ Error: failed 'x' here\n".data) emptyOv) =
      setFmt 20 23 stringFormat emptyOv := by
  refine ⟨by decide, by decide, by decide, rfl, by decide, rfl⟩

/-! Properties of the quote-pair match. -/

theorem get?_drop_add (l : List Char) (i j : Nat) : (l.drop i).get? j = l.get? (i + j) := by
  simp [List.get?_eq_getElem?, List.getElem?_drop]

theorem firstIdxFrom_some_iff (q : Char) :
    ∀ (l : List Char) (k : Nat),
      firstIdxFrom q l = some k ↔
        (l.get? k = some q ∧ ∀ k2, k2 < k → l.get? k2 ≠ some q) := by
  intro l
  induction l with
  | nil =>
    intro k
    simp [firstIdxFrom, List.get?]
  | cons c rest ih =>
    intro k
    rw [firstIdxFrom]
    by_cases hc : c = q
    · rw [if_pos hc]
      subst hc
      constructor
      · intro h
        simp only [Option.some.injEq] at h
        subst h
        exact ⟨rfl, fun k2 hk2 => by omega⟩
      · rintro ⟨h1, h2⟩
        cases k with
        | zero => rfl
        | succ k1 =>
          have h3 := h2 0 (Nat.succ_pos k1)
          simp only [List.get?] at h3
          exact absurd rfl h3
    · rw [if_neg hc]
      cases k with
      | zero =>
        simp only [Option.map_eq_some']
        constructor
        · rintro ⟨a, -, habs⟩
          omega
        · rintro ⟨h1, -⟩
          simp only [List.get?] at h1
          exact absurd (Option.some.inj h1) hc
      | succ k1 =>
        simp only [Option.map_eq_some']
        constructor
        · rintro ⟨a, ha, hak⟩
          have hk1 : a = k1 := by omega
          subst hk1
          obtain ⟨h1, h2⟩ := (ih a).mp ha
          refine ⟨h1, ?_⟩
          intro k2 hk2
          cases k2 with
          | zero =>
            simp only [List.get?]
            intro habs
            exact hc (Option.some.inj habs)
          | succ k3 => exact h2 k3 (by omega)
        · rintro ⟨h1, h2⟩
          refine ⟨k1, (ih k1).mpr ⟨h1, fun k3 hk3 => h2 (k3 + 1) (by omega)⟩, rfl⟩

theorem stringMatchAt_iff (b : Block) (i e : Nat) :
    stringMatchAt b i = some e ↔ ∃ j, quotedPairAt b i j ∧ e = j + 1 := by
  unfold stringMatchAt
  cases hq : b.get? i with
  | none =>
    simp only
    constructor
    · intro h; exact absurd h (by simp)
    · rintro ⟨j, ⟨h1, h2, h3, h4, h5⟩, he⟩
      rcases h3 with h3 | h3 <;> rw [hq] at h3 <;> exact absurd h3 (by simp)
  | some q =>
    simp only
    by_cases hquote : q = dquoteChar ∨ q = squoteChar
    · rw [if_pos hquote]
      simp only [Option.map_eq_some']
      constructor
      · rintro ⟨k, hk, hke⟩
        obtain ⟨h1, h2⟩ := (firstIdxFrom_some_iff q _ k).mp hk
        rw [get?_drop_add] at h1
        refine ⟨i + 1 + k, ⟨by omega, ?_, ?_, ?_, ?_⟩, by omega⟩
        · obtain ⟨hlt, -⟩ := List.get?_eq_some.mp h1
          omega
        · rw [hq]
          exact hquote.imp (fun h => by rw [h]) (fun h => by rw [h])
        · rw [hq, h1]
        · intro k2 hk2a hk2b
          rw [hq]
          have h3 := h2 (k2 - (i + 1)) (by omega)
          rw [get?_drop_add, show i + 1 + (k2 - (i + 1)) = k2 by omega] at h3
          exact h3
      · rintro ⟨j, ⟨h1, h2, h3, h4, h5⟩, he⟩
        refine ⟨j - (i + 1), (firstIdxFrom_some_iff q _ _).mpr ⟨?_, ?_⟩, by omega⟩
        · rw [get?_drop_add, show i + 1 + (j - (i + 1)) = j by omega, h4, hq]
        · intro k2 hk2
          rw [get?_drop_add]
          have h6 := h5 (i + 1 + k2) (by omega) (by omega)
          rw [hq] at h6
          exact h6
    · rw [if_neg hquote]
      constructor
      · intro h; exact absurd h (by simp)
      · rintro ⟨j, ⟨h1, h2, h3, h4, h5⟩, he⟩
        exfalso
        rcases h3 with h3 | h3 <;> rw [hq] at h3
        · exact hquote (Or.inl (Option.some.inj h3))
        · exact hquote (Or.inr (Option.some.inj h3))

theorem gMatch_string_lt_docEnd :
    ∀ {doc : Doc} {s e : Nat} {t : List Char},
      gMatch stringMatchAt doc s = some (e, t) → s < docEnd doc := by
  intro doc
  induction doc with
  | nil => intro s e t h; exact absurd h (by simp [gMatch])
  | cons b bs ih =>
    intro s e t h
    rw [gMatch] at h
    split at h
    · rename_i hs
      simp only [Option.map_eq_some'] at h
      obtain ⟨e2, he2, -⟩ := h
      obtain ⟨j, ⟨hj1, hj2, -, -, -⟩, -⟩ := (stringMatchAt_iff b s e2).mp he2
      cases bs with
      | nil => rw [docEnd]; omega
      | cons b2 bs2 =>
        rw [docEnd]
        · omega
        · simp
    · rename_i hs
      simp only [Option.map_eq_some'] at h
      obtain ⟨p2, hp2, -⟩ := h
      cases bs with
      | nil => exact absurd hp2 (by simp [gMatch])
      | cons b2 bs2 =>
        have hlt := ih (s := s - (b.length + 1)) (e := p2.1) (t := p2.2) (by
          rw [← hp2])
        rw [docEnd]
        · omega
        · simp

theorem gMatch_string_cover :
    ∀ (doc : Doc) (p : Nat),
      (∃ s e t, gMatch stringMatchAt doc s = some (e, t) ∧ s ≤ p ∧ p < e) ↔
        docQuotedCover doc p := by
  intro doc
  induction doc with
  | nil =>
    intro p
    constructor
    · rintro ⟨s, e, t, hg, -, -⟩
      exact absurd hg (by simp [gMatch])
    · intro h
      rw [docQuotedCover] at h
      exact h.elim
  | cons b bs ih =>
    intro p
    rw [docQuotedCover]
    constructor
    · rintro ⟨s, e, t, hg, hsp, hpe⟩
      rw [gMatch] at hg
      split at hg
      · rename_i hs
        simp only [Option.map_eq_some'] at hg
        obtain ⟨e2, he2, hpr⟩ := hg
        simp only [Prod.mk.injEq] at hpr
        obtain ⟨j, hpair, hej⟩ := (stringMatchAt_iff b s e2).mp he2
        exact Or.inl ⟨s, j, hpair, hsp, by omega⟩
      · rename_i hs
        simp only [Option.map_eq_some'] at hg
        obtain ⟨pr, hpr, heq⟩ := hg
        simp only [Prod.mk.injEq] at heq
        refine Or.inr ⟨by omega, ?_⟩
        apply (ih (p - (b.length + 1))).mp
        exact ⟨s - (b.length + 1), pr.1, pr.2, hpr, by omega, by omega⟩
    · rintro (⟨i, j, hpair, hip, hpj⟩ | ⟨hlen, hcov⟩)
      · have hm : stringMatchAt b i = some (j + 1) :=
          (stringMatchAt_iff b i (j + 1)).mpr ⟨j, hpair, rfl⟩
        have hi : i ≤ b.length := by
          obtain ⟨h1, h2, -, -, -⟩ := hpair
          omega
        refine ⟨i, j + 1, (b.drop i).take (j + 1 - i), ?_, hip, by omega⟩
        rw [gMatch, if_pos hi, hm]
        rfl
      · obtain ⟨s2, e2, t2, hg2, hs2, he2⟩ := (ih (p - (b.length + 1))).mpr hcov
        refine ⟨s2 + (b.length + 1), e2 + (b.length + 1), t2, ?_, by omega, by omega⟩
        rw [gMatch, if_neg (by omega),
          show s2 + (b.length + 1) - (b.length + 1) = s2 by omega, hg2]
        rfl

theorem lastWrite_stringHook :
    ∀ (l : List Span) (p : Nat) (f : Fmt),
      lastWrite stringHook l p = some f ↔
        (f = stringFormat ∧ ∃ sp, sp ∈ l ∧ sp.s ≤ p ∧ p < sp.e) := by
  intro l
  induction l with
  | nil =>
    intro p f
    simp [lastWrite]
  | cons sp rest ih =>
    intro p f
    have hstep : lastWrite stringHook (sp :: rest) p =
        match lastWrite stringHook rest p with
        | some f2 => some f2
        | none => if sp.s ≤ p ∧ p < sp.e then some stringFormat else none := by
      rw [lastWrite]
      cases lastWrite stringHook rest p with
      | some f2 => rfl
      | none => rfl
    rw [hstep]
    cases hlw : lastWrite stringHook rest p with
    | some f2 =>
      obtain ⟨hf2, sp2, hmem, hc1, hc2⟩ := (ih p f2).mp hlw
      constructor
      · intro h
        simp only [Option.some.injEq] at h
        subst h
        exact ⟨hf2, sp2, List.mem_cons_of_mem _ hmem, hc1, hc2⟩
      · rintro ⟨hf, -⟩
        simp only [Option.some.injEq]
        rw [hf, hf2]
    | none =>
      by_cases hc : sp.s ≤ p ∧ p < sp.e
      · rw [if_pos hc]
        constructor
        · intro h
          simp only [Option.some.injEq] at h
          exact ⟨h.symm, sp, List.mem_cons_self _ _, hc.1, hc.2⟩
        · rintro ⟨hf, -⟩
          rw [hf]
      · rw [if_neg hc]
        constructor
        · intro h
          exact absurd h (by simp)
        · rintro ⟨hf, sp2, hmem, hc1, hc2⟩
          rcases List.mem_cons.mp hmem with heq | hmem2
          · subst heq
            exact absurd ⟨hc1, hc2⟩ hc
          · exfalso
            have h2 := (ih p stringFormat).mpr ⟨rfl, sp2, hmem2, hc1, hc2⟩
            rw [hlw] at h2
            exact absurd h2 (by simp)

/-- C4: the StringLiteralMarker pass, run to completion on a fresh document,
styles exactly the positions covered by a span enclosed in a matching pair of
quote characters of the same kind (quotes included, no quote character of the
delimiting kind inside), and every styled position carries the one fixed
String format; on `he said "hi" and 'bye'` exactly the spans `"hi"`
(positions 8-11) and `'bye'` (positions 17-21) are styled, and a lone
unmatched double quote (`a"b`) leaves the overlay empty. -/
theorem c4_string_marker :
    (∀ (doc : Doc) (p : Nat) (f : Fmt),
      runPassOv stringMatchAt stringHook doc emptyOv p = some f ↔
        (f = stringFormat ∧ docQuotedCover doc p)) ∧
    passSpans stringMatchAt (splitNL "he said \"hi\" and 'bye'".data)
        (docEnd (splitNL "he said \"hi\" and 'bye'".data)) =
      [⟨17, 22, "'bye'".data⟩, ⟨8, 12, "\"hi\"".data⟩] ∧
    runPassOv stringMatchAt stringHook (splitNL "he said \"hi\" and 'bye'".data) emptyOv =
      setFmt 8 12 stringFormat (setFmt 17 22 stringFormat emptyOv) ∧
    runPassOv stringMatchAt stringHook (splitNL "a\"b".data) emptyOv = emptyOv := by
  refine ⟨?_, by decide, rfl, rfl⟩
  intro doc p f
  unfold runPassOv
  rw [applySpans_eq_lastWrite]
  cases hlw : lastWrite stringHook (passSpans stringMatchAt doc (docEnd doc)) p with
  | none =>
    simp only [emptyOv]
    constructor
    · intro h
      exact absurd h (by simp)
    · rintro ⟨hf, hcov⟩
      exfalso
      obtain ⟨s, e, t, hg, hs, he⟩ := (gMatch_string_cover doc p).mpr hcov
      have hmem : Span.mk s e t ∈ passSpans stringMatchAt doc (docEnd doc) :=
        mem_passSpans.mpr ⟨gMatch_string_lt_docEnd hg, hg⟩
      have h2 := (lastWrite_stringHook _ p stringFormat).mpr ⟨rfl, ⟨s, e, t⟩, hmem, hs, he⟩
      rw [hlw] at h2
      exact absurd h2 (by simp)
  | some f2 =>
    obtain ⟨hf2, sp2, hmem, hc1, hc2⟩ :=
      (lastWrite_stringHook (passSpans stringMatchAt doc (docEnd doc)) p f2).mp hlw
    have hg := (mem_passSpans.mp hmem).2
    have hcov : docQuotedCover doc p :=
      (gMatch_string_cover doc p).mp ⟨sp2.s, sp2.e, sp2.txt, hg, hc1, hc2⟩
    constructor
    · intro h
      simp only [Option.some.injEq] at h
      subst h
      exact ⟨hf2, hcov⟩
    · rintro ⟨hf, -⟩
      simp only [Option.some.injEq]
      rw [hf, hf2]

theorem c4_string_marker_witness :
    runPassOv stringMatchAt stringHook (splitNL "he said \"hi\" and 'bye'".data) emptyOv 9 =
      some stringFormat :=
  (c4_string_marker.1 (splitNL "he said \"hi\" and 'bye'".data) 9 stringFormat).mpr
    ⟨rfl, Or.inl ⟨8, 11, by decide, by decide, by decide⟩⟩
